import Mathlib

/-!
Verification of the plate-layout assignment engine (`src/layout.py`) and the
multi-plate overflow loop (`elisa_design.py`).

The embedding is a direct translation of the Python source:

* `validSlots` mirrors the slot-list construction at the top of
  `PlateLayout.assign_samples` (rows `A..H`, columns `start_col..12`).
* `slotsInRow` mirrors the `slots_in_row` counting loop.
* `findFirstFit` mirrors the `for i, (sub, reps) in enumerate(queue)` scan
  that selects the first group whose replicate count fits the current row,
  returned together with the queue elements before and after it (so that
  `queue.pop(i)` is `pre ++ post`).
* `placeBlock` mirrors the nested placement loops (`for i in
  range(tps_to_place): for k in range(sub_reps): ...`).
* `assignLoopFuel` is the `while slot_idx < total_slots` loop.  The loop in
  the source terminates because every iteration either advances the slot
  cursor or shrinks the queue; here that is made explicit with a fuel
  argument, and `assign_samples` supplies fuel `2 * slots + queue-length + 1`
  which is proved sufficient below.  A `none` result models a Python
  exception (`ZeroDivisionError` from `slots_in_row // sub_reps` when a
  group has replicate count 0) or exhausted fuel.
* `PlateState`, `writeCell`, `_initialize_standards`, `mkPlateLayout` and
  `_render_assignments_linear` model the two pandas DataFrames
  (`layout_grid`, `type_grid`) of `PlateLayout` as partial maps, the
  constructor and the rendering of assignments.  The Python value
  `f"STD_{conc}"` is modelled as `CellVal.std conc`.
* `overflowStep` / `overflowIter` model the per-plate loop of
  `elisa_design.main`, which re-runs `assign_samples` on the previous
  leftovers with `start_col = 2` until the remainder is empty.
-/

/-- A slot: a row label and a column number, as in `valid_slots`. -/
abbrev Slot := String × Nat

/-- A group: an ordered list of sample ids plus one replicate count,
as in the `(sub_samples, sub_reps)` tuples of the queue. -/
abbrev SampleGroup := List String × Nat

/-- One produced assignment `(s_id, (row, col))`, as appended to
`final_assignments`. -/
abbrev Assignment := String × Slot

/-- The row labels A through H (`self.rows`). -/
def rowsList : List String := ["A", "B", "C", "D", "E", "F", "G", "H"]

/-- Default `standard_concentrations=[0, 0.1, 0.2, 0.4, 0.8, 1.6, 3.2, 6.4]`. -/
def standardConcentrations : List Rat := [0, 0.1, 0.2, 0.4, 0.8, 1.6, 3.2, 6.4]

/-- The linear slot order built at the start of `assign_samples`: for each
row `A..H`, the columns `start_col..12`. -/
def validSlots (start_col : Nat) : List Slot :=
  rowsList.flatMap (fun r => (List.range' start_col (13 - start_col)).map (fun c => (r, c)))

/-- The `slots_in_row` count: number of consecutive slots from index `idx`
whose row equals `r` (the row of the current slot). -/
def slotsInRow (slots : List Slot) (idx : Nat) (r : String) : Nat :=
  ((slots.drop idx).takeWhile (fun s => s.1 == r)).length

/-- The first-fit scan over the queue: returns the first group whose
replicate count is at most `cap`, together with the queue entries before it
(`pre`) and after it (`post`); `none` when nothing fits.  Mirrors the
`enumerate(queue)` loop with `break`, with `queue.pop(i)` giving
`pre ++ post`. -/
def findFirstFit (cap : Nat) : List SampleGroup → Option (List SampleGroup × SampleGroup × List SampleGroup)
  | [] => none
  | g :: rest =>
    if g.2 ≤ cap then some ([], g, rest)
    else
      match findFirstFit cap rest with
      | none => none
      | some (pre, sel, post) => some (g :: pre, sel, post)

/-- The nested placement loops: each sample in `samples` consumes `reps`
consecutive slots starting at `base`. -/
def placeBlock (slots : List Slot) (base reps : Nat) : List String → List Assignment
  | [] => []
  | s :: rest =>
    (List.range reps).map (fun k => (s, slots.getD (base + k) ("", 0)))
      ++ placeBlock slots (base + reps) reps rest

/-- The `while slot_idx < total_slots` loop of `assign_samples`, with an
explicit fuel.  Returns `some (assignments, leftovers)`; `none` models a
Python `ZeroDivisionError` (replicate count 0 selected) or insufficient
fuel (which never happens for the fuel chosen in `assign_samples`, as
proved below). -/
def assignLoopFuel (slots : List Slot) : Nat → Nat → List SampleGroup → Option (List Assignment × List SampleGroup)
  | 0, _, _ => none
  | fuel + 1, slot_idx, queue =>
    if slot_idx < slots.length then
      if queue = [] then some ([], queue)
      else
        let curr_r := (slots.getD slot_idx ("", 0)).1
        let sir := slotsInRow slots slot_idx curr_r
        match findFirstFit sir queue with
        | none => assignLoopFuel slots fuel (slot_idx + sir) queue
        | some (pre, g, post) =>
          if g.2 = 0 then none
          else
            let tps := min g.1.length (sir / g.2)
            let queue2 :=
              if tps < g.1.length then (g.1.drop tps, g.2) :: (pre ++ post) else pre ++ post
            match assignLoopFuel slots fuel (slot_idx + tps * g.2) queue2 with
            | none => none
            | some (rest_as, lf) =>
              some (placeBlock slots slot_idx g.2 (g.1.take tps) ++ rest_as, lf)
    else some ([], queue)

/-- The scheduling core of `PlateLayout.assign_samples`: produces the
`final_assignments` list and the leftovers.  The fuel
`2 * slots + queue-length + 1` dominates the loop's termination measure. -/
def assign_samples (queue : List SampleGroup) (start_col : Nat) :
    Option (List Assignment × List SampleGroup) :=
  assignLoopFuel (validSlots start_col) (2 * (validSlots start_col).length + queue.length + 1) 0 queue

/-- The value stored in a well of `layout_grid`: a standard
(`f"STD_{conc}"`, modelled by the concentration) or a sample id. -/
inductive CellVal where
  | std (conc : Rat)
  | sample (id : String)
deriving DecidableEq

/-- The two DataFrames of `PlateLayout` (`layout_grid`, `type_grid`) as
partial maps from (row, column) to cell value and type string. -/
structure PlateState where
  layout : String → Nat → Option CellVal
  types : String → Nat → Option String

/-- The empty grids created in `PlateLayout.__init__`. -/
def emptyState : PlateState := ⟨fun _ _ => none, fun _ _ => none⟩

/-- A direct `.at[row, col] = ...` write into both grids. -/
def writeCell (st : PlateState) (r : String) (c : Nat) (v : CellVal) (t : String) : PlateState :=
  { layout := fun r2 c2 => if r2 = r ∧ c2 = c then some v else st.layout r2 c2
    types := fun r2 c2 => if r2 = r ∧ c2 = c then some t else st.types r2 c2 }

/-- The `for i, row in enumerate(self.rows)` loop of
`_initialize_standards`: write each (row, concentration) pair into
column 1. -/
def placeStandardRows (st : PlateState) : List (String × Rat) → PlateState
  | [] => st
  | (row, conc) :: rest => placeStandardRows (writeCell st row 1 (.std conc) "Standard") rest

/-- Model of `PlateLayout._initialize_standards`: silently returns when the
concentration list does not have exactly 8 entries, otherwise writes the
reversed concentrations into column 1, one per row. -/
def _initialize_standards (concs : List Rat) (st : PlateState) : PlateState :=
  if concs.length ≠ 8 then st
  else placeStandardRows st (rowsList.zip concs.reverse)

/-- Model of `PlateLayout.__init__`: empty grids, then standards initialization only
when the concentration list is non-empty. -/
def mkPlateLayout (concs : List Rat) : PlateState :=
  if concs = [] then emptyState else _initialize_standards concs emptyState

/-- Model of `PlateLayout._render_assignments_linear`: write every assignment into
the grids, in order. -/
def _render_assignments_linear (st : PlateState) : List Assignment → PlateState
  | [] => st
  | (s, (r, c)) :: rest => _render_assignments_linear (writeCell st r c (.sample s) "Sample") rest

/-- The full `PlateLayout.assign_samples` method: run the scheduling core,
render the assignments into the grids, return the new state and the
leftovers (`none` models a raised exception, leaving the grids
untouched since rendering happens after the loop). -/
def PlateLayout_assign_samples (st : PlateState) (queue : List SampleGroup) (start_col : Nat) :
    Option (PlateState × List SampleGroup) :=
  match assign_samples queue start_col with
  | none => none
  | some (as_, lf) => some (_render_assignments_linear st as_, lf)

/-- Sample ids of a queue, in queue order. -/
def queueIds : List SampleGroup → List String
  | [] => []
  | g :: rest => g.1 ++ queueIds rest

/-- One pass of the per-plate loop in `elisa_design.main`: a fresh plate,
`assign_samples(current_samples, start_col=2)`, keep the leftovers. -/
def overflowStep (q : List SampleGroup) : Option (List SampleGroup) :=
  match assign_samples q 2 with
  | none => none
  | some (_, lf) => some lf

/-- Runs `n` passes of the per-plate loop of `elisa_design.main`: stop when the
remainder is empty, otherwise run another plate on the leftovers.  The
source loop has no other stopping condition. -/
def overflowIter : Nat → List SampleGroup → Option (List SampleGroup)
  | 0, q => some q
  | n + 1, q =>
    if q = [] then some q
    else
      match overflowStep q with
      | none => none
      | some lf => if lf = [] then some lf else overflowIter n lf

/-- The replicate block of one placed member: sample id, starting position
in the slot sequence, replicate count. -/
abbrev ReplicateBlock := String × Nat × Nat

/-- The assignments generated by one replicate block: the member's id on
`reps` consecutive slots starting at `base`. -/
def blockAssigns (slots : List Slot) (b : ReplicateBlock) : List Assignment :=
  (List.range b.2.2).map (fun k => (b.1, slots.getD (b.2.1 + k) ("", 0)))

/-- The replicate blocks of the members of one group placement: member `j`
starts at `base + j * reps`. -/
def memberBlocks (base reps : Nat) : List String → List ReplicateBlock
  | [] => []
  | s :: rest => (s, base, reps) :: memberBlocks (base + reps) reps rest

/-- The assignment list decomposes into per-member replicate blocks, where
each block's size is the `replicate_count` of a queue group containing that
member (so a member placed with replicate count `n` occupies an `n`-block,
never several smaller runs), and each block is non-empty, within the slot
sequence, consecutive, and entirely inside one row. -/
def ContiguousRowBlocks (slots : List Slot) (q : List SampleGroup) (as_ : List Assignment) :
    Prop :=
  ∃ blocks : List ReplicateBlock,
    as_ = blocks.flatMap (blockAssigns slots) ∧
    ∀ b ∈ blocks,
      (∃ g ∈ q, b.1 ∈ g.1 ∧ b.2.2 = g.2) ∧
      0 < b.2.2 ∧ b.2.1 + b.2.2 ≤ slots.length ∧
      ∀ k < b.2.2, (slots.getD (b.2.1 + k) ("", 0)).1 = (slots.getD b.2.1 ("", 0)).1

/-- Specification of `findFirstFit`: it returns a decomposition of the queue; the selected group
fits, everything before it does not. -/
theorem findFirstFit_eq_some {cap : Nat} {q pre post : List SampleGroup} {g : SampleGroup}
    (h : findFirstFit cap q = some (pre, g, post)) :
    q = pre ++ g :: post ∧ g.2 ≤ cap ∧ ∀ g2 ∈ pre, cap < g2.2 := by
  induction q generalizing pre with
  | nil => simp [findFirstFit] at h
  | cons a rest ih =>
    by_cases ha : a.2 ≤ cap
    · simp [findFirstFit, ha] at h
      obtain ⟨h1, h2, h3⟩ := h
      subst h1; subst h2; subst h3
      simp [ha]
    · simp only [findFirstFit, if_neg ha] at h
      cases hrec : findFirstFit cap rest with
      | none => rw [hrec] at h; simp at h
      | some val =>
        obtain ⟨pre2, sel2, post2⟩ := val
        rw [hrec] at h
        simp at h
        obtain ⟨h1, h2, h3⟩ := h
        have harg : findFirstFit cap rest = some (pre2, g, post) := by
          rw [hrec, h2, h3]
        obtain ⟨hq, hfit, hpre⟩ := ih harg
        subst h1
        refine ⟨by simp [hq], hfit, ?_⟩
        intro g2 hg2
        rcases List.mem_cons.mp hg2 with h | h
        · subst h; omega
        · exact hpre g2 h

/-- The scan `findFirstFit` fails only when nothing in the queue fits. -/
theorem findFirstFit_eq_none {cap : Nat} {q : List SampleGroup}
    (h : findFirstFit cap q = none) : ∀ g ∈ q, cap < g.2 := by
  induction q with
  | nil => simp
  | cons a rest ih =>
    by_cases ha : a.2 ≤ cap
    · simp [findFirstFit, ha] at h
    · simp only [findFirstFit, if_neg ha] at h
      cases hrec : findFirstFit cap rest with
      | none =>
        intro g hg
        rcases List.mem_cons.mp hg with hh | hh
        · subst hh; omega
        · exact ih hrec g hh
      | some val => obtain ⟨p2, s2, q2⟩ := val; rw [hrec] at h; simp at h

/-- The slots-in-row count never exceeds the slots remaining. -/
theorem slotsInRow_le (slots : List Slot) (idx : Nat) (r : String) :
    slotsInRow slots idx r ≤ slots.length - idx := by
  unfold slotsInRow
  have h1 : ((slots.drop idx).takeWhile (fun s => s.1 == r)).length ≤ (slots.drop idx).length :=
    List.IsPrefix.length_le ( List.takeWhile_prefix _)
  simpa using h1

/-- At a valid cursor position the slots-in-row count is positive: the
current slot itself matches its own row. -/
theorem slotsInRow_pos (slots : List Slot) (idx : Nat) (h : idx < slots.length) :
    0 < slotsInRow slots idx (slots.getD idx ("", 0)).1 := by
  unfold slotsInRow
  rw [List.getD_eq_getElem slots ("", 0) h]
  have hd : slots.drop idx = slots[idx] :: slots.drop (idx + 1) :=
    List.drop_eq_getElem_cons h
  rw [hd, List.takeWhile_cons_of_pos (by simp)]
  simp

/-- Every slot within the slots-in-row range has the given row label. -/
theorem slotsInRow_row {slots : List Slot} {idx m : Nat} {r : String}
    (hm : m < slotsInRow slots idx r) :
    idx + m < slots.length ∧ (slots.getD (idx + m) ("", 0)).1 = r := by
  unfold slotsInRow at hm
  set tw := (slots.drop idx).takeWhile (fun s => s.1 == r) with htw
  have hpre : tw <+: slots.drop idx := List.takeWhile_prefix _
  have hlen : tw.length ≤ (slots.drop idx).length := List.IsPrefix.length_le hpre
  have hmd : m < (slots.drop idx).length := lt_of_lt_of_le hm hlen
  have hms : idx + m < slots.length := by
    rw [List.length_drop] at hmd; omega
  refine ⟨hms, ?_⟩
  have he1 : tw[m] = (slots.drop idx)[m] := List.IsPrefix.getElem hpre hm
  have he2 : (slots.drop idx)[m] = slots[idx + m] := List.getElem_drop slots
  have hmem : tw[m] ∈ (slots.drop idx).takeWhile (fun s => s.1 == r) := by
    rw [← htw]
    exact List.getElem_mem hm
  have hp0 := List.mem_takeWhile_imp hmem
  have hp : ((tw[m]).1 == r) = true := hp0
  rw [List.getD_eq_getElem slots ("", 0) hms]
  rw [he1, he2] at hp
  exact eq_of_beq hp

/-- Termination of the scheduling loop: with every replicate count
positive, fuel exceeding `2 * (remaining slots) + queue length` is enough —
each iteration either advances the cursor or shrinks the queue. -/
theorem assignLoopFuel_total : ∀ (fuel : Nat) (slots : List Slot) (idx : Nat)
    (q : List SampleGroup),
    (∀ g ∈ q, 0 < g.2) →
    2 * (slots.length - idx) + q.length < fuel →
    ∃ res, assignLoopFuel slots fuel idx q = some res := by
  intro fuel
  induction fuel with
  | zero => intro slots idx q _ h; omega
  | succ fuel ih =>
    intro slots idx q hpos hfuel
    by_cases hidx : idx < slots.length
    · by_cases hq : q = []
      · exact ⟨([], q), by simp [assignLoopFuel, hidx, hq]⟩
      · have hsir : 0 < slotsInRow slots idx (slots.getD idx ("", 0)).1 :=
          slotsInRow_pos slots idx hidx
        have hsirle : slotsInRow slots idx (slots.getD idx ("", 0)).1 ≤ slots.length - idx :=
          slotsInRow_le slots idx _
        set sir := slotsInRow slots idx (slots.getD idx ("", 0)).1 with hsirdef
        cases hff : findFirstFit sir q with
        | none =>
          obtain ⟨res, hres⟩ := ih slots (idx + sir) q hpos (by omega)
          refine ⟨res, ?_⟩
          simp only [assignLoopFuel, if_pos hidx, if_neg hq, ← hsirdef, hff]
          exact hres
        | some sel =>
          obtain ⟨pre, g, post⟩ := sel
          obtain ⟨hqeq, hfit, -⟩ := findFirstFit_eq_some hff
          have hg : 0 < g.2 := hpos g (by rw [hqeq]; simp)
          have hlen : q.length = pre.length + post.length + 1 := by rw [hqeq]; simp; omega
          have htps_mul : min g.1.length (sir / g.2) * g.2 ≤ sir :=
            le_trans (Nat.mul_le_mul_right _ (min_le_right _ _)) (Nat.div_mul_le_self _ _)
          by_cases hsplit : min g.1.length (sir / g.2) < g.1.length
          · have htps_eq : min g.1.length (sir / g.2) = sir / g.2 := by
              rcases Nat.le_total g.1.length (sir / g.2) with hc | hc
              · rw [min_eq_left hc] at hsplit; omega
              · exact min_eq_right hc
            have htps_pos : 0 < min g.1.length (sir / g.2) := by
              rw [htps_eq]; exact Nat.div_pos hfit hg
            have hpos2 : ∀ g2 ∈ (g.1.drop (min g.1.length (sir / g.2)), g.2) :: (pre ++ post),
                0 < g2.2 := by
              intro g2 hg2
              rcases List.mem_cons.mp hg2 with h | h
              · rw [h]; exact hg
              · exact hpos g2 (by rw [hqeq]; rcases List.mem_append.mp h with h2 | h2 <;> simp [h2])
            obtain ⟨⟨res_as, res_lf⟩, hres⟩ := ih slots (idx + min g.1.length (sir / g.2) * g.2)
              ((g.1.drop (min g.1.length (sir / g.2)), g.2) :: (pre ++ post)) hpos2
              (by simp only [List.length_cons, List.length_append]
                  have h1 : 1 ≤ min g.1.length (sir / g.2) * g.2 :=
                    Nat.one_le_iff_ne_zero.mpr (Nat.mul_ne_zero (by omega) (by omega))
                  omega)
            refine ⟨(placeBlock slots idx g.2 (g.1.take (min g.1.length (sir / g.2))) ++ res_as,
              res_lf), ?_⟩
            simp only [assignLoopFuel, if_pos hidx, if_neg hq, ← hsirdef, hff,
              if_neg (by omega : ¬ g.2 = 0), if_pos hsplit, hres]
          · have hpos2 : ∀ g2 ∈ pre ++ post, 0 < g2.2 := by
              intro g2 h
              exact hpos g2 (by rw [hqeq]; rcases List.mem_append.mp h with h2 | h2 <;> simp [h2])
            obtain ⟨⟨res_as, res_lf⟩, hres⟩ := ih slots (idx + min g.1.length (sir / g.2) * g.2)
              (pre ++ post) hpos2
              (by simp only [List.length_append]; omega)
            refine ⟨(placeBlock slots idx g.2 (g.1.take (min g.1.length (sir / g.2))) ++ res_as,
              res_lf), ?_⟩
            simp only [assignLoopFuel, if_pos hidx, if_neg hq, ← hsirdef, hff,
              if_neg (by omega : ¬ g.2 = 0), if_neg hsplit, hres]
    · exact ⟨([], q), by simp [assignLoopFuel, hidx]⟩

/-- The placement `placeBlock` is the concatenation of its per-member replicate blocks. -/
theorem placeBlock_eq : ∀ (samples : List String) (slots : List Slot) (base reps : Nat),
    placeBlock slots base reps samples = (memberBlocks base reps samples).flatMap (blockAssigns slots) := by
  intro samples
  induction samples with
  | nil => intro slots base reps; rfl
  | cons s rest ih =>
    intro slots base reps
    simp only [placeBlock, memberBlocks, List.flatMap_cons, ih]
    rfl

/-- Bounds on the blocks generated by one group placement: the block's
member is one of the placed samples, its size is the group's replicate
count, and it lies inside the consumed slot range. -/
theorem memberBlocks_mem : ∀ (samples : List String) (base reps : Nat) (b : ReplicateBlock),
    b ∈ memberBlocks base reps samples →
    b.1 ∈ samples ∧ b.2.2 = reps ∧ base ≤ b.2.1 ∧
      b.2.1 + reps ≤ base + samples.length * reps := by
  intro samples
  induction samples with
  | nil => intro base reps b hb; simp [memberBlocks] at hb
  | cons s rest ih =>
    intro base reps b hb
    simp only [memberBlocks, List.mem_cons] at hb
    rcases hb with hb | hb
    · subst hb
      refine ⟨by simp, rfl, le_refl _, ?_⟩
      simp only [List.length_cons, Nat.succ_mul]
      omega
    · obtain ⟨h0, h1, h2, h3⟩ := ih (base + reps) reps b hb
      refine ⟨List.mem_cons_of_mem _ h0, h1, by omega, ?_⟩
      simp only [List.length_cons, Nat.succ_mul]
      omega

/-- Every successful run of the scheduling loop produces an assignment list
that decomposes into per-member replicate blocks — each block's size being
the replicate count of a queue group containing that member — lying on
consecutive slots entirely within one row.  (The invariant is preserved
across split reinsertion because a remainder group keeps the original
group's members and replicate count.) -/
theorem assignLoopFuel_blocks : ∀ (fuel : Nat) (slots : List Slot) (idx : Nat)
    (q : List SampleGroup) (as_ : List Assignment) (lf : List SampleGroup),
    assignLoopFuel slots fuel idx q = some (as_, lf) → ContiguousRowBlocks slots q as_ := by
  intro fuel
  induction fuel with
  | zero => intro slots idx q as_ lf h; simp [assignLoopFuel] at h
  | succ fuel ih =>
    intro slots idx q as_ lf h
    simp only [assignLoopFuel] at h
    by_cases hidx : idx < slots.length
    · rw [if_pos hidx] at h
      by_cases hq : q = []
      · rw [if_pos hq] at h
        obtain ⟨h1, -⟩ := Prod.mk.injEq .. ▸ Option.some.injEq .. ▸ h
        exact ⟨[], by simp [← h1], by simp⟩
      · rw [if_neg hq] at h
        cases hff : findFirstFit (slotsInRow slots idx (slots.getD idx ("", 0)).1) q with
        | none =>
          rw [hff] at h
          exact ih slots _ q as_ lf h
        | some sel =>
          obtain ⟨pre, g, post⟩ := sel
          rw [hff] at h
          dsimp only at h
          by_cases hg0 : g.2 = 0
          · rw [if_pos hg0] at h; simp at h
          · rw [if_neg hg0] at h
            cases hrec : assignLoopFuel slots fuel
                (idx + min g.1.length (slotsInRow slots idx (slots.getD idx ("", 0)).1 / g.2) * g.2)
                (if min g.1.length (slotsInRow slots idx (slots.getD idx ("", 0)).1 / g.2) < g.1.length
                 then (g.1.drop (min g.1.length (slotsInRow slots idx (slots.getD idx ("", 0)).1 / g.2)), g.2) :: (pre ++ post)
                 else pre ++ post) with
            | none => rw [hrec] at h; simp at h
            | some res =>
              obtain ⟨rest_as, lf2⟩ := res
              rw [hrec] at h
              dsimp only at h
              simp only [Option.some.injEq, Prod.mk.injEq] at h
              obtain ⟨has, hlf⟩ := h
              obtain ⟨hqeq, -, -⟩ := findFirstFit_eq_some hff
              have hgq : g ∈ q := by rw [hqeq]; simp
              have hppq : ∀ g3 ∈ pre ++ post, g3 ∈ q := by
                intro g3 h3
                rw [hqeq]
                rcases List.mem_append.mp h3 with h4 | h4 <;> simp [h4]
              obtain ⟨blocks2, hb2eq, hb2cond⟩ := ih slots _ _ rest_as lf2 hrec
              set sir := slotsInRow slots idx (slots.getD idx ("", 0)).1 with hsirdef
              set tps := min g.1.length (sir / g.2) with htpsdef
              refine ⟨memberBlocks idx g.2 (g.1.take tps) ++ blocks2, ?_, ?_⟩
              · rw [← has, List.flatMap_append, ← hb2eq, placeBlock_eq]
              · intro b hb
                rcases List.mem_append.mp hb with hb | hb
                · obtain ⟨hid, hreps, hbase, hub⟩ := memberBlocks_mem _ _ _ _ hb
                  have htake : (g.1.take tps).length = tps := by
                    rw [List.length_take]
                    exact min_eq_left (min_le_left _ _)
                  rw [htake] at hub
                  have hmul : tps * g.2 ≤ sir :=
                    le_trans (Nat.mul_le_mul_right _ (min_le_right _ _)) (Nat.div_mul_le_self _ _)
                  have hsirle : sir ≤ slots.length - idx := slotsInRow_le slots idx _
                  have hgpos : 0 < g.2 := by omega
                  have hrow : ∀ k, k < g.2 → (slots.getD (b.2.1 + k) ("", 0)).1
                      = (slots.getD idx ("", 0)).1 := by
                    intro k hk
                    have hmlt : b.2.1 - idx + k < sir := by omega
                    have := slotsInRow_row hmlt
                    have harith : idx + (b.2.1 - idx + k) = b.2.1 + k := by omega
                    rw [harith] at this
                    exact this.2
                  refine ⟨⟨g, hgq, List.take_subset tps g.1 hid, hreps⟩, by omega, by omega, ?_⟩
                  intro k hk
                  rw [hreps] at hk
                  have h1 := hrow k hk
                  have h2 := hrow 0 hgpos
                  rw [Nat.add_zero] at h2
                  rw [h1, h2]
                · obtain ⟨⟨g2, hg2, hid2, hr2⟩, hrest⟩ := hb2cond b hb
                  refine ⟨?_, hrest⟩
                  by_cases hsplit : tps < g.1.length
                  · rw [if_pos hsplit] at hg2
                    rcases List.mem_cons.mp hg2 with hcase | hcase
                    · rw [hcase] at hid2 hr2
                      exact ⟨g, hgq, List.drop_subset tps g.1 hid2, hr2⟩
                    · exact ⟨g2, hppq g2 hcase, hid2, hr2⟩
                  · rw [if_neg hsplit] at hg2
                    exact ⟨g2, hppq g2 hg2, hid2, hr2⟩
    · rw [if_neg hidx] at h
      obtain ⟨h1, -⟩ := Prod.mk.injEq .. ▸ Option.some.injEq .. ▸ h
      exact ⟨[], by simp [← h1], by simp⟩

/-- The id list `queueIds` distributes over queue concatenation. -/
theorem queueIds_append : ∀ (a b : List SampleGroup), queueIds (a ++ b) = queueIds a ++ queueIds b := by
  intro a b
  induction a with
  | nil => rfl
  | cons g rest ih => simp [queueIds, ih]

/-- The sample ids occurring in a placed block are exactly the placed
members (each member contributes `reps` copies, `reps > 0`). -/
theorem mem_map_fst_placeBlock {reps : Nat} (hg : 0 < reps) :
    ∀ (samples : List String) (slots : List Slot) (base : Nat) (s : String),
    (s ∈ (placeBlock slots base reps samples).map Prod.fst) ↔ s ∈ samples := by
  intro samples
  induction samples with
  | nil => intro slots base s; simp [placeBlock]
  | cons s0 rest ih =>
    intro slots base s
    simp only [placeBlock, List.map_append, List.mem_append, ih, List.mem_cons, List.map_map,
      List.mem_map, Function.comp_apply, List.mem_range]
    constructor
    · rintro (⟨k, -, hks⟩ | h)
      · exact Or.inl hks.symm
      · exact Or.inr h
    · rintro (h | h)
      · exact Or.inl ⟨0, hg, h.symm⟩
      · exact Or.inr h

/-- Conservation invariant of the scheduling loop: there is a list of
placed member ids such that placed-members plus leftover ids is a
permutation of the input queue's ids, and the placed members are exactly
the ids occurring in the produced assignments. -/
theorem assignLoopFuel_perm : ∀ (fuel : Nat) (slots : List Slot) (idx : Nat)
    (q : List SampleGroup) (as_ : List Assignment) (lf : List SampleGroup),
    assignLoopFuel slots fuel idx q = some (as_, lf) →
    ∃ placed : List String, (placed ++ queueIds lf).Perm (queueIds q) ∧
      ∀ s, s ∈ placed ↔ s ∈ as_.map Prod.fst := by
  intro fuel
  induction fuel with
  | zero => intro slots idx q as_ lf h; simp [assignLoopFuel] at h
  | succ fuel ih =>
    intro slots idx q as_ lf h
    simp only [assignLoopFuel] at h
    by_cases hidx : idx < slots.length
    · rw [if_pos hidx] at h
      by_cases hq : q = []
      · rw [if_pos hq] at h
        simp only [Option.some.injEq, Prod.mk.injEq] at h
        obtain ⟨h1, h2⟩ := h
        exact ⟨[], by rw [← h2]; simp, by simp [← h1]⟩
      · rw [if_neg hq] at h
        cases hff : findFirstFit (slotsInRow slots idx (slots.getD idx ("", 0)).1) q with
        | none =>
          rw [hff] at h
          exact ih slots _ q as_ lf h
        | some sel =>
          obtain ⟨pre, g, post⟩ := sel
          rw [hff] at h
          dsimp only at h
          by_cases hg0 : g.2 = 0
          · rw [if_pos hg0] at h; simp at h
          · rw [if_neg hg0] at h
            obtain ⟨hqeq, -, -⟩ := findFirstFit_eq_some hff
            cases hrec : assignLoopFuel slots fuel
                (idx + min g.1.length (slotsInRow slots idx (slots.getD idx ("", 0)).1 / g.2) * g.2)
                (if min g.1.length (slotsInRow slots idx (slots.getD idx ("", 0)).1 / g.2) < g.1.length
                 then (g.1.drop (min g.1.length (slotsInRow slots idx (slots.getD idx ("", 0)).1 / g.2)), g.2) :: (pre ++ post)
                 else pre ++ post) with
            | none => rw [hrec] at h; simp at h
            | some res =>
              obtain ⟨rest_as, lf2⟩ := res
              rw [hrec] at h
              dsimp only at h
              simp only [Option.some.injEq, Prod.mk.injEq] at h
              obtain ⟨has, hlf⟩ := h
              obtain ⟨placed2, hperm2, hiff2⟩ := ih slots _ _ rest_as lf2 hrec
              set sir := slotsInRow slots idx (slots.getD idx ("", 0)).1 with hsirdef
              set tps := min g.1.length (sir / g.2) with htpsdef
              refine ⟨g.1.take tps ++ placed2, ?_, ?_⟩
              · have hmid : ∀ (x A B : List String), (x ++ (A ++ B)).Perm (A ++ (x ++ B)) := by
                  intro x A B
                  have h1 : (x ++ A ++ B).Perm (A ++ x ++ B) :=
                    List.Perm.append_right B List.perm_append_comm
                  simpa [List.append_assoc] using h1
                have hqids : queueIds q = queueIds pre ++ (g.1 ++ queueIds post) := by
                  rw [hqeq, queueIds_append]; rfl
                rw [hqids, ← hlf, List.append_assoc]
                by_cases hsplit : tps < g.1.length
                · rw [if_pos hsplit] at hperm2
                  have hq2 : queueIds ((g.1.drop tps, g.2) :: (pre ++ post))
                      = g.1.drop tps ++ (queueIds pre ++ queueIds post) := by
                    show g.1.drop tps ++ queueIds (pre ++ post) = _
                    rw [queueIds_append]
                  rw [hq2] at hperm2
                  have s1 : (g.1.take tps ++ (placed2 ++ queueIds lf2)).Perm
                      (g.1.take tps ++ (g.1.drop tps ++ (queueIds pre ++ queueIds post))) :=
                    List.Perm.append_left _ hperm2
                  have s2 : g.1.take tps ++ (g.1.drop tps ++ (queueIds pre ++ queueIds post))
                      = g.1 ++ (queueIds pre ++ queueIds post) := by
                    rw [← List.append_assoc, List.take_append_drop]
                  exact (s2 ▸ s1).trans (hmid ..)
                · rw [if_neg hsplit] at hperm2
                  have htl : tps = g.1.length := by
                    have := min_le_left g.1.length (sir / g.2)
                    omega
                  rw [queueIds_append] at hperm2
                  rw [htl, List.take_length]
                  exact (List.Perm.append_left _ hperm2).trans (hmid ..)
              · intro s
                rw [← has]
                simp only [List.map_append, List.mem_append, hiff2]
                constructor
                · rintro (h | h)
                  · exact Or.inl ((mem_map_fst_placeBlock (by omega) _ slots idx s).mpr h)
                  · exact Or.inr h
                · rintro (h | h)
                  · exact Or.inl ((mem_map_fst_placeBlock (by omega) _ slots idx s).mp h)
                  · exact Or.inr h
    · rw [if_neg hidx] at h
      simp only [Option.some.injEq, Prod.mk.injEq] at h
      obtain ⟨h1, h2⟩ := h
      exact ⟨[], by rw [← h2]; simp, by simp [← h1]⟩

/-- Every assignment produced by the scheduling loop targets a slot of the
slot sequence. -/
theorem assignLoopFuel_slots_mem {fuel : Nat} {slots : List Slot} {idx : Nat}
    {q : List SampleGroup} {as_ : List Assignment} {lf : List SampleGroup}
    (h : assignLoopFuel slots fuel idx q = some (as_, lf)) :
    ∀ a ∈ as_, a.2 ∈ slots := by
  obtain ⟨blocks, hbe, hbc⟩ := assignLoopFuel_blocks fuel slots idx q as_ lf h
  intro a ha
  rw [hbe] at ha
  obtain ⟨b, hb, hab⟩ := List.mem_flatMap.mp ha
  obtain ⟨-, hpos, hub, -⟩ := hbc b hb
  simp only [blockAssigns, List.mem_map, List.mem_range] at hab
  obtain ⟨k, hk, hka⟩ := hab
  have hlt : b.2.1 + k < slots.length := by omega
  rw [← hka]
  simp only
  rw [List.getD_eq_getElem slots ("", 0) hlt]
  exact List.getElem_mem hlt

/-- Every slot of the sequence has column at least `start_col`. -/
theorem mem_validSlots_col {start_col : Nat} {p : Slot} (h : p ∈ validSlots start_col) :
    start_col ≤ p.2 := by
  simp only [validSlots, List.mem_flatMap, List.mem_map] at h
  obtain ⟨r, -, c, hc, hp⟩ := h
  rw [← hp]
  exact (List.mem_range'_1.mp hc).1

/-- Rendering assignments whose columns all avoid `c` leaves every cell in
column `c` unchanged. -/
theorem render_preserve : ∀ (as_ : List Assignment) (st : PlateState) (r : String) (c : Nat),
    (∀ a ∈ as_, a.2.2 ≠ c) →
    (_render_assignments_linear st as_).layout r c = st.layout r c ∧
    (_render_assignments_linear st as_).types r c = st.types r c := by
  intro as_
  induction as_ with
  | nil => intro st r c _; exact ⟨rfl, rfl⟩
  | cons a rest ih =>
    intro st r c hcol
    obtain ⟨s, ar, ac⟩ := a
    have hc : ac ≠ c := hcol (s, ar, ac) (by simp)
    have hrec := ih (writeCell st ar ac (.sample s) "Sample") r c
      (fun a2 ha2 => hcol a2 (List.mem_cons_of_mem _ ha2))
    refine ⟨?_, ?_⟩
    · rw [_render_assignments_linear, hrec.1]
      simp [writeCell, Ne.symm hc]
    · rw [_render_assignments_linear, hrec.2]
      simp [writeCell, Ne.symm hc]

/-- Claim C6: for the default 8-element standards list
`[0, 0.1, 0.2, 0.4, 0.8, 1.6, 3.2, 6.4]`, calibration standards are placed
one per row in the calibration column (column 1) in reverse order of the
list: row index `i` receives `standards[7 - i]`, so row `A` receives `6.4`
and row `H` receives `0`, each typed as `Standard`. -/
theorem calibration_reversal :
    (∀ i : Fin 8, (mkPlateLayout standardConcentrations).layout (rowsList.getD i.val "") 1
      = some (CellVal.std (standardConcentrations.getD (7 - i.val) 0))) ∧
    (mkPlateLayout standardConcentrations).layout "A" 1 = some (CellVal.std 6.4) ∧
    (mkPlateLayout standardConcentrations).layout "H" 1 = some (CellVal.std 0) ∧
    (∀ i : Fin 8, (mkPlateLayout standardConcentrations).types (rowsList.getD i.val "") 1
      = some "Standard") := by
  have hmk : mkPlateLayout standardConcentrations
      = placeStandardRows emptyState (rowsList.zip standardConcentrations.reverse) := by
    rw [mkPlateLayout, if_neg (by simp [standardConcentrations]), _initialize_standards,
      if_neg (by simp [standardConcentrations])]
  refine ⟨?_, ?_, ?_, ?_⟩
  · intro i
    fin_cases i <;>
      · rw [hmk]
        simp [standardConcentrations, rowsList, placeStandardRows, writeCell, emptyState]
  · rw [hmk]
    simp [standardConcentrations, rowsList, placeStandardRows, writeCell, emptyState]
  · rw [hmk]
    simp [standardConcentrations, rowsList, placeStandardRows, writeCell, emptyState]
  · intro i
    fin_cases i <;>
      · rw [hmk]
        simp [standardConcentrations, rowsList, placeStandardRows, writeCell, emptyState]

/-- Claim C7 counterexample: constructing with a non-empty standards list
whose length differs from the row count does not fail — `__init__` has no
error path; `_initialize_standards` silently returns, so the state is
exactly the one produced by an empty standards list, with no `Standard`
well anywhere in column 1. -/
theorem standards_mismatch_counterexample :
    mkPlateLayout [(1 : Rat)] = mkPlateLayout [] ∧
    (mkPlateLayout [(1 : Rat)]).types "A" 1 = none ∧
    (mkPlateLayout [(1 : Rat)]).layout "A" 1 = none :=
  ⟨rfl, rfl, rfl⟩

/-- Claim C7 amended: a standards list whose length differs from 8 (the
row count) is silently ignored: construction succeeds and produces the
completely empty grids — no `ConfigurationError` exists in the code, no
`Standard` wells are placed; in particular the empty list also skips
calibration. -/
theorem standards_mismatch_silent (concs : List Rat) (h : concs.length ≠ 8) :
    mkPlateLayout concs = emptyState := by
  cases hc : concs with
  | nil => simp [mkPlateLayout]
  | cons a rest =>
    rw [← hc, mkPlateLayout, if_neg (by rw [hc]; simp), _initialize_standards, if_pos h]

/-- Witness for the amended C7: length 1 ≠ 8, and construction yields the
empty grids. -/
theorem standards_mismatch_silent_witness :
    ([(1 : Rat)].length ≠ 8) ∧ mkPlateLayout [(1 : Rat)] = emptyState :=
  ⟨by decide, standards_mismatch_silent [(1 : Rat)] (by decide)⟩

/-- Claim C3: a group whose replicate count (12) exceeds every row's slot
capacity (11 with `start_col = 2`) is never placed: a full pass of
`assign_samples` produces zero assignments and returns the queue unchanged,
and the per-plate loop of `elisa_design.main` therefore never terminates —
after any number of plates the remainder is still the same non-empty
queue.  The code contains no `StarvationError` and no zero-progress check,
so instead of surfacing a fatal error it generates plates forever. -/
theorem starvation_never_terminates :
    assign_samples [(["s1"], 12)] 2 = some ([], [(["s1"], 12)]) ∧
    ∀ n : Nat, overflowIter n [(["s1"], 12)] = some [(["s1"], 12)] := by
  have hstep : overflowStep [(["s1"], 12)] = some [(["s1"], 12)] := by decide
  refine ⟨by decide, ?_⟩
  intro n
  induction n with
  | zero => rfl
  | succ n ihn =>
    simp only [overflowIter, hstep]
    rw [if_neg (by decide), if_neg (by decide)]
    exact ihn

/-- Claim C8: with every group's replicate count at least 1, one run of
`assign_samples` terminates: any fuel exceeding the bound
`2 · (slot count) + queue length` completes the loop, and in particular the
canonical run returns a result.  (Each iteration either advances the slot
cursor by at least one or strictly shrinks the queue.) -/
theorem scheduler_terminates (q : List SampleGroup) (start_col : Nat)
    (hpos : ∀ g ∈ q, 0 < g.2) :
    (∀ fuel, 2 * (validSlots start_col).length + q.length < fuel →
      ∃ res, assignLoopFuel (validSlots start_col) fuel 0 q = some res) ∧
    ∃ res, assign_samples q start_col = some res := by
  constructor
  · intro fuel hf
    exact assignLoopFuel_total fuel _ 0 q hpos (by simpa using hf)
  · exact assignLoopFuel_total _ _ 0 q hpos (by omega)

/-- Witness for C8 at a concrete queue. -/
theorem scheduler_terminates_witness :
    (assign_samples [(["a"], 1)] 2).isSome = true :=
  Option.isSome_iff_exists.mpr ((scheduler_terminates [(["a"], 1)] 2 (by decide)).2)

/-- Claim C2: in every successful run, the produced assignment list
decomposes into per-member replicate blocks, where each block's size is the
`replicate_count` of an input-queue group containing that member: a placed
member occupies exactly `replicate_count` consecutive positions of the
canonical slot sequence, all lying within one row — no member's replicate
block ever crosses a row boundary. -/
theorem replicate_blocks_row_contained (q : List SampleGroup) (start_col : Nat)
    (as_ : List Assignment) (lf : List SampleGroup)
    (h : assign_samples q start_col = some (as_, lf)) :
    ContiguousRowBlocks (validSlots start_col) q as_ :=
  assignLoopFuel_blocks _ _ _ _ _ _ h

/-- Witness for C2 at a concrete run (one group, two replicates). -/
theorem replicate_blocks_witness :
    ContiguousRowBlocks (validSlots 2) [(["a"], 2)] [("a", ("A", 2)), ("a", ("A", 3))] :=
  replicate_blocks_row_contained [(["a"], 2)] 2 _ [] (by decide)

/-- Claim C10: with `start_col ≥ 2`, a completed `assign_samples` run
writes only to columns `≥ start_col`: every cell in any column below
`start_col` (in particular all of calibration column 1) keeps exactly its
previous value and type. -/
theorem frame_below_start_col (st : PlateState) (q : List SampleGroup) (start_col : Nat)
    (st2 : PlateState) (lf : List SampleGroup)
    (_hsc : 2 ≤ start_col)
    (h : PlateLayout_assign_samples st q start_col = some (st2, lf)) :
    ∀ r c, c < start_col → st2.layout r c = st.layout r c ∧ st2.types r c = st.types r c := by
  intro r c hc
  rw [PlateLayout_assign_samples] at h
  cases hrun : assign_samples q start_col with
  | none => rw [hrun] at h; simp at h
  | some res =>
    obtain ⟨as_, lf2⟩ := res
    rw [hrun] at h
    dsimp only at h
    simp only [Option.some.injEq, Prod.mk.injEq] at h
    obtain ⟨hst, -⟩ := h
    rw [← hst]
    apply render_preserve
    intro a ha
    have hrun2 : assignLoopFuel (validSlots start_col)
        (2 * (validSlots start_col).length + q.length + 1) 0 q = some (as_, lf2) := hrun
    have hmem : a.2 ∈ validSlots start_col := assignLoopFuel_slots_mem hrun2 a ha
    have := mem_validSlots_col hmem
    omega

/-- Witness for C10: the standard in well (A, 1) survives a run. -/
theorem frame_below_start_col_witness :
    (_render_assignments_linear (mkPlateLayout standardConcentrations)
        [("a", ("A", 2))]).layout "A" 1
      = (mkPlateLayout standardConcentrations).layout "A" 1 ∧
    (_render_assignments_linear (mkPlateLayout standardConcentrations)
        [("a", ("A", 2))]).types "A" 1
      = (mkPlateLayout standardConcentrations).types "A" 1 :=
  frame_below_start_col (mkPlateLayout standardConcentrations) [(["a"], 1)] 2
    (_render_assignments_linear (mkPlateLayout standardConcentrations) [("a", ("A", 2))]) []
    (by omega) rfl "A" 1 (by omega)

/-- Claim C1 counterexample: as literally stated the conservation claim is
false.  (1) With replicate count 2 a placed sample id occurs twice in the
assignment list, so the multiset of ids across assignments and leftovers is
strictly larger than the queue's multiset.  (2) With the same id in two
queued groups, a placed id also occurs in the leftovers, violating the
stated disjointness. -/
theorem conservation_counterexample :
    (assign_samples [(["x"], 2)] 2 = some ([("x", ("A", 2)), ("x", ("A", 3))], []) ∧
      ¬ ((([("x", ("A", 2)), ("x", ("A", 3))] : List Assignment).map Prod.fst
          ++ queueIds []).Perm (queueIds [(["x"], 2)]))) ∧
    (assign_samples [(["x"], 1), (["x"], 2)] 12
        = some ([("x", ("A", 12))], [(["x"], 2)]) ∧
      "x" ∈ ([("x", ("A", 12))] : List Assignment).map Prod.fst ∧
      "x" ∈ queueIds [(["x"], 2)]) := by
  refine ⟨⟨by decide, fun hp => ?_⟩, by decide, by decide, by decide⟩
  have := hp.length_eq
  simp [queueIds] at this

/-- Claim C1 amended: for queues whose sample ids are pairwise distinct
(the caller's responsibility per the data model), the distinct sample ids
appearing in the assignments (each placed member counted once — it occupies
`replicate_count` wells) together with the leftover ids form a permutation
of the queue's ids, and no id appearing in assignments appears in
leftovers. -/
theorem conservation_amended (q : List SampleGroup) (start_col : Nat)
    (as_ : List Assignment) (lf : List SampleGroup)
    (hnd : (queueIds q).Nodup)
    (h : assign_samples q start_col = some (as_, lf)) :
    ((as_.map Prod.fst).dedup ++ queueIds lf).Perm (queueIds q) ∧
    (as_.map Prod.fst).Disjoint (queueIds lf) := by
  obtain ⟨placed, hperm, hiff⟩ := assignLoopFuel_perm _ _ _ _ _ _ h
  have hndpl : (placed ++ queueIds lf).Nodup := (hperm.nodup_iff).mpr hnd
  rw [List.nodup_append] at hndpl
  obtain ⟨hnp, hnl, hdisj⟩ := hndpl
  have hdd : ((as_.map Prod.fst).dedup).Perm placed := by
    rw [List.perm_ext_iff_of_nodup (List.nodup_dedup _) hnp]
    intro a
    rw [List.mem_dedup]
    exact (hiff a).symm
  constructor
  · exact (List.Perm.append_right _ hdd).trans hperm
  · intro a ha hal
    exact hdisj ((hiff a).mpr ha) hal

/-- Witness for the amended C1 at a concrete two-member group. -/
theorem conservation_amended_witness :
    ((([("x", ("A", 2)), ("x", ("A", 3)), ("y", ("A", 4)), ("y", ("A", 5))] : List Assignment).map
        Prod.fst).dedup ++ queueIds []).Perm (queueIds [(["x", "y"], 2)]) ∧
    (([("x", ("A", 2)), ("x", ("A", 3)), ("y", ("A", 4)), ("y", ("A", 5))] : List Assignment).map
        Prod.fst).Disjoint (queueIds []) :=
  conservation_amended [(["x", "y"], 2)] 2 _ [] (by decide) (by decide)

/-- Claim C9: when the first-fit scan selects a group with an empty member
list (and a positive replicate count that fits the row), the step removes
it from the queue, produces no assignment, and continues at the same
cursor: the rest of the run is exactly the run on the queue without that
group, so the empty group appears in neither assignments nor leftovers.
The conjunct shows a concrete such run: the empty group vanishes from the
placement result entirely. -/
theorem empty_group_vanishes (slots : List Slot) (fuel idx : Nat)
    (q pre post : List SampleGroup) (g : SampleGroup)
    (hidx : idx < slots.length) (hq : q ≠ [])
    (hff : findFirstFit (slotsInRow slots idx (slots.getD idx ("", 0)).1) q = some (pre, g, post))
    (hempty : g.1 = []) (hpos : 0 < g.2) :
    assignLoopFuel slots (fuel + 1) idx q = assignLoopFuel slots fuel idx (pre ++ post) ∧
    assign_samples [([], 5)] 2 = some ([], []) := by
  refine ⟨?_, by decide⟩
  simp only [assignLoopFuel, if_pos hidx, if_neg hq, hff]
  rw [if_neg (by omega : ¬ g.2 = 0), hempty]
  simp only [List.length_nil, Nat.zero_min, lt_irrefl, if_false, Nat.zero_mul,
    Nat.add_zero, List.take_nil, placeBlock, List.nil_append]
  cases h2 : assignLoopFuel slots fuel idx (pre ++ post) with
  | none => rfl
  | some res => obtain ⟨a, l⟩ := res; rfl

/-- Witness for C9 at a concrete queue headed by an empty group. -/
theorem empty_group_vanishes_witness :
    assignLoopFuel (validSlots 2) 6 0 [([], 3), (["b"], 2)]
      = assignLoopFuel (validSlots 2) 5 0 [(["b"], 2)] ∧
    assign_samples [([], 5)] 2 = some ([], []) :=
  empty_group_vanishes (validSlots 2) 5 0 [([], 3), (["b"], 2)] [] [(["b"], 2)] ([], 3)
    (by decide) (by decide) (by decide) rfl (by decide)

/-- Claim C5: when the selected group is only partially placed
(`tps < number of members`), the unplaced member suffix — with the same
replicate count — is reinserted at the front of the queue for the rest of
the run, so the remainder is attempted before every group queued after the
split group. -/
theorem split_reinserted_at_front (slots : List Slot) (fuel idx : Nat)
    (q pre post : List SampleGroup) (g : SampleGroup) (tps : Nat)
    (hidx : idx < slots.length) (hq : q ≠ [])
    (hff : findFirstFit (slotsInRow slots idx (slots.getD idx ("", 0)).1) q = some (pre, g, post))
    (hpos : 0 < g.2)
    (htps : tps = min g.1.length (slotsInRow slots idx (slots.getD idx ("", 0)).1 / g.2))
    (hsplit : tps < g.1.length) :
    assignLoopFuel slots (fuel + 1) idx q =
      match assignLoopFuel slots fuel (idx + tps * g.2) ((g.1.drop tps, g.2) :: (pre ++ post)) with
      | none => none
      | some (rest_as, lf) => some (placeBlock slots idx g.2 (g.1.take tps) ++ rest_as, lf) := by
  simp only [assignLoopFuel, if_pos hidx, if_neg hq, hff]
  rw [if_neg (by omega : ¬ g.2 = 0), ← htps, if_pos hsplit]

/-- Witness for C5: a two-member group with one slot per row is split after
its first member; the remainder leads the queue of the recursive run. -/
theorem split_reinserted_at_front_witness :
    assignLoopFuel (validSlots 12) 10 0 [(["a", "b"], 1)]
      = some ([("a", ("A", 12)), ("b", ("B", 12))], []) :=
  split_reinserted_at_front (validSlots 12) 9 0 [(["a", "b"], 1)] [] [] (["a", "b"], 1) 1
    (by decide) (by decide) (by decide) (by decide) (by decide) (by decide)

/-- One-step unfolding of the scheduling loop (the definitional equation
with the let bindings inlined). -/
theorem assignLoopFuel_succ_eq (slots : List Slot) (fuel idx : Nat) (q : List SampleGroup) :
    assignLoopFuel slots (fuel + 1) idx q =
      if idx < slots.length then
        if q = [] then some ([], q)
        else
          match findFirstFit (slotsInRow slots idx (slots.getD idx ("", 0)).1) q with
          | none =>
            assignLoopFuel slots fuel (idx + slotsInRow slots idx (slots.getD idx ("", 0)).1) q
          | some (pre, g, post) =>
            if g.2 = 0 then none
            else
              match assignLoopFuel slots fuel
                  (idx + min g.1.length (slotsInRow slots idx (slots.getD idx ("", 0)).1 / g.2)
                    * g.2)
                  (if min g.1.length (slotsInRow slots idx (slots.getD idx ("", 0)).1 / g.2)
                      < g.1.length
                   then (g.1.drop (min g.1.length
                       (slotsInRow slots idx (slots.getD idx ("", 0)).1 / g.2)), g.2)
                     :: (pre ++ post)
                   else pre ++ post) with
              | none => none
              | some (rest_as, lf) =>
                some (placeBlock slots idx g.2
                  (g.1.take (min g.1.length
                    (slotsInRow slots idx (slots.getD idx ("", 0)).1 / g.2))) ++ rest_as, lf)
      else some ([], q) := rfl

/-- Claim C4: strict first-fit selection.  First conjunct: the scan always
selects the first group in queue order whose replicate count is at most the
remaining row capacity — every earlier-queued group is strictly larger
than the capacity.  Second conjunct (FIFO among equals): when two groups of
equal replicate count both fit the opening row, the earlier one is placed
first — the very first assignment of the run is the first member of the
first group, at the first slot. -/
theorem first_fit_selection :
    (∀ (cap : Nat) (q pre post : List SampleGroup) (g : SampleGroup),
      findFirstFit cap q = some (pre, g, post) →
      q = pre ++ g :: post ∧ g.2 ≤ cap ∧ ∀ g2 ∈ pre, cap < g2.2) ∧
    (∀ (sA sB : List String) (r : Nat) (rest : List SampleGroup)
        (as_ : List Assignment) (lf : List SampleGroup),
      0 < r → r ≤ 11 → sA ≠ [] →
      assign_samples ((sA, r) :: (sB, r) :: rest) 2 = some (as_, lf) →
      as_.head? = some (sA.headD "", ("A", 2))) := by
  constructor
  · intro cap q pre post g h
    exact findFirstFit_eq_some h
  · intro sA sB r rest as_ lf hr0 hr11 hne h
    simp only [assign_samples] at h
    rw [assignLoopFuel_succ_eq] at h
    rw [if_pos (by decide : 0 < (validSlots 2).length)] at h
    rw [if_neg (by simp : ¬ ((sA, r) :: (sB, r) :: rest : List SampleGroup) = [])] at h
    have hsir : slotsInRow (validSlots 2) 0 ((validSlots 2).getD 0 ("", 0)).1 = 11 := by decide
    rw [hsir] at h
    have hffr : findFirstFit 11 ((sA, r) :: (sB, r) :: rest)
        = some ([], (sA, r), (sB, r) :: rest) := by
      simp [findFirstFit, hr11]
    rw [hffr] at h
    dsimp only at h
    rw [if_neg (by omega : ¬ r = 0)] at h
    cases hrec : assignLoopFuel (validSlots 2)
        (2 * (validSlots 2).length + ((sA, r) :: (sB, r) :: rest).length)
        (0 + min sA.length (11 / r) * r)
        (if min sA.length (11 / r) < sA.length
         then (sA.drop (min sA.length (11 / r)), r) :: ([] ++ (sB, r) :: rest)
         else [] ++ (sB, r) :: rest) with
    | none => rw [hrec] at h; simp at h
    | some res =>
      obtain ⟨rest_as, lf2⟩ := res
      rw [hrec] at h
      dsimp only at h
      simp only [Option.some.injEq, Prod.mk.injEq] at h
      obtain ⟨has, -⟩ := h
      cases sA with
      | nil => exact absurd rfl hne
      | cons s0 sA2 =>
        have htpos : 0 < min (s0 :: sA2).length (11 / r) := by
          have hd : 0 < 11 / r := Nat.div_pos hr11 hr0
          simp only [List.length_cons, lt_min_iff]
          omega
        obtain ⟨t, ht⟩ : ∃ t, min (s0 :: sA2).length (11 / r) = t + 1 :=
          ⟨min (s0 :: sA2).length (11 / r) - 1, by omega⟩
        obtain ⟨u, hu⟩ : ∃ u, r = u + 1 := ⟨r - 1, by omega⟩
        have hslot0 : (validSlots 2).getD 0 ("", 0) = ("A", 2) := by decide
        rw [← has, ht, List.take_succ_cons, placeBlock, hu, List.range_succ_eq_map]
        simp only [List.map_cons, Nat.add_zero, hslot0, List.cons_append, List.head?_cons,
          List.headD_cons]

/-- Witness for C4: two groups of equal replicate count 2; the head of the
assignment list is the first member of the earlier group at slot (A, 2). -/
theorem first_fit_selection_witness :
    ([("a1", ("A", 2)), ("a1", ("A", 3)), ("b1", ("A", 4)), ("b1", ("A", 5))]
      : List Assignment).head? = some ("a1", ("A", 2)) :=
  first_fit_selection.2 ["a1"] ["b1"] 2 []
    [("a1", ("A", 2)), ("a1", ("A", 3)), ("b1", ("A", 4)), ("b1", ("A", 5))] []
    (by omega) (by omega) (by simp) (by decide)

/-- Sanity check for the strengthened decomposition predicate: an
assignment list in which a member of a replicate-2 group occupies wells in
two different rows admits no legal block decomposition — its only
size-respecting decomposition is a single 2-block, which violates the
same-row condition. -/
theorem contiguousRowBlocks_rejects_row_crossing :
    ¬ ContiguousRowBlocks (validSlots 2) [(["x"], 2)]
        [("x", ("A", 12)), ("x", ("B", 2))] := by
  rintro ⟨blocks, heq, hcond⟩
  have hsize : ∀ b ∈ blocks, b.2.2 = 2 := by
    intro b hb
    obtain ⟨⟨g, hg, -, hr⟩, -⟩ := hcond b hb
    simp only [List.mem_singleton] at hg
    rw [hg] at hr
    exact hr
  have hlen : ∀ b ∈ blocks, (blockAssigns (validSlots 2) b).length = 2 := by
    intro b hb
    simp [blockAssigns, hsize b hb]
  cases blocks with
  | nil => simp at heq
  | cons b1 rest =>
    cases rest with
    | cons b2 rest2 =>
      have h1 := hlen b1 (by simp)
      have h2 := hlen b2 (by simp)
      have hL := congrArg List.length heq
      simp only [List.flatMap_cons, List.length_append, List.length_cons, List.length_nil] at hL
      omega
    | nil =>
      have hb2 : b1.2.2 = 2 := hsize b1 (by simp)
      obtain ⟨-, -, -, hrowc⟩ := hcond b1 (by simp)
      rw [List.flatMap_cons, List.flatMap_nil, List.append_nil] at heq
      simp only [blockAssigns, hb2, List.range_succ, List.range_zero, List.nil_append,
        List.map_append, List.map_cons, List.map_nil, List.cons_append, Nat.add_zero,
        List.cons.injEq, List.nil_eq, Prod.mk.injEq] at heq
      obtain ⟨⟨-, hA⟩, ⟨-, hB⟩, -⟩ := heq
      have hrow1 := hrowc 1 (by omega)
      rw [Nat.add_zero] at hrow1
      rw [← hA, ← hB] at hrow1
      simp at hrow1
